import Mathlib

/-
Verification of the LegisScan diff engine.

The embedding below models, over `List Char`, the character-granularity
diff pipeline of `LegalSpellingCorrector` in src/predictor.py:

  * `dp`                      — the LCS dynamic-programming table
                                (`_get_lcs_with_indices`, lines 156-164);
  * `lcsWalk`                 — the backtracking loop (lines 166-182);
  * `_get_lcs_with_indices`   — backtracking plus the final reversal
                                (lines 154-189);
  * `diffSegments`            — the difference-extraction loop of
                                `compare_text` including its two trailing
                                flushes (lines 82-144);
  * `_merge_differences`      — run merging (lines 191-213);
  * `compare_text`            — the public comparison entry point
                                (lines 48-152);

and, for the line-granularity contract comparator in
src/Non-core functionality/非核心功能/新旧合同比对.py, the summary-count
loop of `EnhancedContractComparator.compare_texts` (lines 126-154) over
an opcode list supplied by the external `difflib.SequenceMatcher`
collaborator.
-/

namespace LegisScan

/-- Kind of a difference record.  The source uses the literal strings
"删除" (delete), "新增" (insert) and "替换" (replace); the constructors
below stand for those three strings. -/
inductive DiffType
  | Delete
  | Insert
  | Replace
deriving DecidableEq, Repr

/-- A full difference record as built by the main branch of
`compare_text` (src/predictor.py lines 91-144): a dict with keys
`type`, `original`, `corrected`, `start_original`, `end_original`,
`start_corrected`, `end_corrected`. -/
structure Difference where
  type : DiffType
  original : List Char
  corrected : List Char
  start_original : Nat
  end_original : Nat
  start_corrected : Nat
  end_corrected : Nat
deriving DecidableEq, Repr

/-- A record of the `differences` list returned by `compare_text`.  The
empty-input branches (src/predictor.py lines 59-64) build a dict with
the four keys `type`, `content`, `start`, `end` (`stop` models the `end`
key, a reserved word in Lean); the non-empty branch wraps a full
`Difference`.  The two constructors model the two distinct dict shapes
appearing in the Python result. -/
inductive DiffRecord
  | short (type : DiffType) (content : List Char) (start stop : Nat)
  | full (d : Difference)
deriving DecidableEq, Repr

/-- The dict returned by `compare_text` (src/predictor.py line 148). -/
structure CompareResult where
  original : List Char
  corrected : List Char
  differences : List DiffRecord
deriving DecidableEq, Repr

/-- One row of the LCS dynamic-programming table: given row `i - 1` as
`prev` and the character `c = s1[i - 1]`, `dpRow s2 c prev j` is
`dp[i][j]` computed by the inner `for j` loop of
`_get_lcs_with_indices` (src/predictor.py lines 159-164). -/
def dpRow (s2 : List Char) (c : Char) (prev : Nat → Nat) : Nat → Nat
  | 0 => 0
  | j + 1 =>
    if c = s2.getD j ' ' then prev j + 1
    else max (prev (j + 1)) (dpRow s2 c prev j)

/-- The LCS dynamic-programming table of `_get_lcs_with_indices`
(src/predictor.py lines 156-164), filled row by row exactly as the
Python `for i` loop does: `dp s1 s2 i j` is the table entry `dp[i][j]`,
the LCS length of `s1[:i]` and `s2[:j]`.  The Python recurrence is
recovered literally in `dp_zero_left`, `dp_zero_right` and `dp_succ`. -/
def dp (s1 s2 : List Char) : Nat → Nat → Nat
  | 0 => fun _ => 0
  | i + 1 => dpRow s2 (s1.getD i ' ') (dp s1 s2 i)

/-- `dp[0][j] = 0` (first row of the table, src/predictor.py line 158). -/
theorem dp_zero_left (s1 s2 : List Char) (j : Nat) : dp s1 s2 0 j = 0 := rfl

/-- `dp[i][0] = 0` (first column of the table, src/predictor.py line 158). -/
theorem dp_zero_right (s1 s2 : List Char) (i : Nat) : dp s1 s2 i 0 = 0 := by
  cases i <;> rfl

/-- The Python recurrence of src/predictor.py lines 161-164:
`dp[i][j] = dp[i-1][j-1] + 1` if `s1[i-1] == s2[j-1]`, else
`max(dp[i-1][j], dp[i][j-1])`. -/
theorem dp_succ (s1 s2 : List Char) (i j : Nat) :
    dp s1 s2 (i + 1) (j + 1) =
      if s1.getD i ' ' = s2.getD j ' ' then dp s1 s2 i j + 1
      else max (dp s1 s2 i (j + 1)) (dp s1 s2 (i + 1) j) := rfl

/-- One row of the backtracking walk of `_get_lcs_with_indices`
(src/predictor.py lines 172-182), organized like `dpRow` so that the
walk is total by structural recursion; `lcsWalk_succ` recovers the loop
body literally. -/
def lcsWalkRow (s1 s2 : List Char) (i : Nat)
    (prev : Nat → List (Nat × Nat)) : Nat → List (Nat × Nat)
  | 0 => []
  | j + 1 =>
    if s1.getD i ' ' = s2.getD j ' ' then (i, j) :: prev j
    else if dp s1 s2 i (j + 1) > dp s1 s2 (i + 1) j then prev (j + 1)
    else lcsWalkRow s1 s2 i prev j

/-- The backtracking loop of `_get_lcs_with_indices` (src/predictor.py
lines 166-182) started at cell `(i, j)`.  It returns the matched index
pairs `(i-1, j-1)` in the order the Python loop appends them (from the
ends of the strings toward the fronts); the two parallel Python lists
`indices_s1` / `indices_s2` are modelled as one list of pairs. -/
def lcsWalk (s1 s2 : List Char) : Nat → Nat → List (Nat × Nat)
  | 0 => fun _ => []
  | i + 1 => lcsWalkRow s1 s2 i (lcsWalk s1 s2 i)

/-- The loop exits when `i == 0` (src/predictor.py line 172). -/
theorem lcsWalk_zero_left (s1 s2 : List Char) (j : Nat) :
    lcsWalk s1 s2 0 j = [] := rfl

/-- The loop exits when `j == 0` (src/predictor.py line 172). -/
theorem lcsWalk_zero_right (s1 s2 : List Char) (i : Nat) :
    lcsWalk s1 s2 i 0 = [] := by
  cases i <;> rfl

/-- The body of the backtracking loop (src/predictor.py lines 173-182):
at cell `(i+1, j+1)`, if `s1[i] == s2[j]` record the pair and move
diagonally; otherwise move up when `dp[i][j+1] > dp[i+1][j]` and left
otherwise. -/
theorem lcsWalk_succ (s1 s2 : List Char) (i j : Nat) :
    lcsWalk s1 s2 (i + 1) (j + 1) =
      if s1.getD i ' ' = s2.getD j ' ' then (i, j) :: lcsWalk s1 s2 i j
      else if dp s1 s2 i (j + 1) > dp s1 s2 (i + 1) j then lcsWalk s1 s2 i (j + 1)
      else lcsWalk s1 s2 (i + 1) j := rfl

/-- `_get_lcs_with_indices` (src/predictor.py lines 154-189): backtrack
from `(len(s1), len(s2))` and reverse to restore increasing order
(lines 184-187).  The returned `lcs` character list is the image of the
pairs under `s1.getD · ' '`, and the two returned index lists are the
`Prod.fst` / `Prod.snd` projections of the pair list. -/
def _get_lcs_with_indices (s1 s2 : List Char) : List (Nat × Nat) :=
  (lcsWalk s1 s2 s1.length s2.length).reverse

/-- Python slice `l[a:b]` for a nonnegative slice, clamped to the
list. -/
def slice {α : Type} (l : List α) (a b : Nat) : List α :=
  (l.drop a).take (b - a)

/-- The difference-extraction loop of `compare_text` (src/predictor.py
lines 82-144).  The state `(i, j)` holds the original / corrected
pointers, the remaining LCS index pairs play the role of the `k`
pointer, and the empty-pairs case performs the two trailing flushes of
lines 122-144 (which reuse the final `i` and `j` unchanged). -/
def diffSegments (original corrected : List Char) :
    Nat → Nat → List (Nat × Nat) → List Difference
  | i, j, [] =>
    (if i < original.length then
      [({ type := .Delete, original := original.drop i, corrected := [],
          start_original := i, end_original := original.length,
          start_corrected := j, end_corrected := j } : Difference)]
     else []) ++
    (if j < corrected.length then
      [({ type := .Insert, original := [], corrected := corrected.drop j,
          start_original := i, end_original := i,
          start_corrected := j, end_corrected := corrected.length } : Difference)]
     else [])
  | i, j, (op, cp) :: rest =>
    let dels : List Difference :=
      if i < op then
        [{ type := .Delete, original := slice original i op, corrected := [],
           start_original := i, end_original := op,
           start_corrected := j, end_corrected := j }]
      else []
    let i1 := if i < op then op else i
    let inss : List Difference :=
      if j < cp then
        [{ type := .Insert, original := [], corrected := slice corrected j cp,
           start_original := i1, end_original := i1,
           start_corrected := j, end_corrected := cp }]
      else []
    let j1 := if j < cp then cp else j
    dels ++ inss ++ diffSegments original corrected (i1 + 1) (j1 + 1) rest

/-- The merge test of `_merge_differences` (src/predictor.py lines
199-201): same type and touching ranges on both sides. -/
def mergeable (last curr : Difference) : Prop :=
  last.type = curr.type ∧
  last.end_original = curr.start_original ∧
  last.end_corrected = curr.start_corrected

instance (last curr : Difference) : Decidable (mergeable last curr) := by
  unfold mergeable; infer_instance

/-- The merged record built at src/predictor.py lines 202-210. -/
def combine (last curr : Difference) : Difference :=
  { type := last.type,
    original := last.original ++ curr.original,
    corrected := last.corrected ++ curr.corrected,
    start_original := last.start_original,
    end_original := curr.end_original,
    start_corrected := last.start_corrected,
    end_corrected := curr.end_corrected }

/-- The loop of `_merge_differences` (src/predictor.py lines 196-212).
The Python loop only ever reads and replaces `merged[-1]`, so it is the
recursion below with `last` playing the role of `merged[-1]` and the
already-frozen front of `merged` left implicit. -/
def mergeAux (last : Difference) : List Difference → List Difference
  | [] => [last]
  | curr :: rest =>
    if mergeable last curr then mergeAux (combine last curr) rest
    else last :: mergeAux curr rest

/-- `_merge_differences` (src/predictor.py lines 191-213). -/
def _merge_differences : List Difference → List Difference
  | [] => []
  | d :: rest => mergeAux d rest

/-- `compare_text` (src/predictor.py lines 48-152).  The `if not lcs`
test of line 68 is modelled as emptiness of the pair list: the `lcs`
character list and the index lists are appended to in lockstep, so one
is empty exactly when the other is. -/
def compare_text (original corrected : List Char) : CompareResult :=
  if original = [] ∧ corrected = [] then
    { original := original, corrected := corrected, differences := [] }
  else if original = [] then
    { original := original, corrected := corrected,
      differences := [.short .Insert corrected 0 corrected.length] }
  else if corrected = [] then
    { original := original, corrected := corrected,
      differences := [.short .Delete original 0 original.length] }
  else
    let pairs := _get_lcs_with_indices original corrected
    if pairs = [] then
      { original := original, corrected := corrected,
        differences :=
          [.full { type := .Replace, original := original,
                   corrected := corrected,
                   start_original := 0, end_original := original.length,
                   start_corrected := 0, end_corrected := corrected.length }] }
    else
      { original := original, corrected := corrected,
        differences :=
          (_merge_differences (diffSegments original corrected 0 0 pairs)).map .full }

/-- Well-formedness of an alignment relative to lower bounds `(i, j)`:
the index pairs are at least `(i, j)` componentwise, strictly increasing
on both sides, in range of their strings, and relate equal characters.
`Aligned s1 s2 0 0` is exactly the spec's Alignment data-model
invariant. -/
def Aligned (s1 s2 : List Char) : Nat → Nat → List (Nat × Nat) → Prop
  | _, _, [] => True
  | i, j, (op, cp) :: rest =>
    i ≤ op ∧ j ≤ cp ∧ op < s1.length ∧ cp < s2.length ∧
    s1.getD op ' ' = s2.getD cp ' ' ∧ Aligned s1 s2 (op + 1) (cp + 1) rest

theorem aligned_le (s1 s2 : List Char) :
    ∀ pairs i j i' j', Aligned s1 s2 i j pairs → i' ≤ i → j' ≤ j →
      Aligned s1 s2 i' j' pairs := by
  intro pairs
  cases pairs with
  | nil => intro _ _ _ _ _ _ _; trivial
  | cons head rest =>
    obtain ⟨op, cp⟩ := head
    intro i j i' j' h hi hj
    obtain ⟨h1, h2, h3, h4, h5, h6⟩ := h
    exact ⟨le_trans hi h1, le_trans hj h2, h3, h4, h5, h6⟩

theorem aligned_concat (s1 s2 : List Char) :
    ∀ pairs i j a b, Aligned s1 s2 i j pairs →
      (∀ p ∈ pairs, p.1 < a ∧ p.2 < b) →
      i ≤ a → j ≤ b → a < s1.length → b < s2.length →
      s1.getD a ' ' = s2.getD b ' ' →
      Aligned s1 s2 i j (pairs ++ [(a, b)]) := by
  intro pairs
  induction pairs with
  | nil =>
    intro i j a b _ _ hia hjb ha hb hab
    exact ⟨hia, hjb, ha, hb, hab, trivial⟩
  | cons head rest ih =>
    obtain ⟨op, cp⟩ := head
    intro i j a b h hmem hia hjb ha hb hab
    obtain ⟨h1, h2, h3, h4, h5, h6⟩ := h
    have hd := hmem (op, cp) (List.mem_cons_self _ _)
    refine ⟨h1, h2, h3, h4, h5, ?_⟩
    exact ih (op + 1) (cp + 1) a b h6
      (fun p hp => hmem p (List.mem_cons_of_mem _ hp)) hd.1 hd.2 ha hb hab

theorem lcsWalk_mem_bounds (s1 s2 : List Char) :
    ∀ n a b, a + b ≤ n → ∀ p ∈ lcsWalk s1 s2 a b, p.1 < a ∧ p.2 < b := by
  intro n
  induction n with
  | zero =>
    intro a b hab p hp
    have ha : a = 0 := by omega
    subst ha
    simp [lcsWalk_zero_left] at hp
  | succ n ih =>
    intro a b hab p hp
    match a, b with
    | 0, b => simp [lcsWalk_zero_left] at hp
    | a + 1, 0 => simp [lcsWalk_zero_right] at hp
    | a + 1, b + 1 =>
      rw [lcsWalk_succ] at hp
      by_cases hc : s1.getD a ' ' = s2.getD b ' '
      · rw [if_pos hc] at hp
        rcases List.mem_cons.mp hp with h | h
        · subst h; omega
        · have := ih a b (by omega) p h; omega
      · rw [if_neg hc] at hp
        by_cases hd : dp s1 s2 a (b + 1) > dp s1 s2 (a + 1) b
        · rw [if_pos hd] at hp
          have := ih a (b + 1) (by omega) p hp; omega
        · rw [if_neg hd] at hp
          have := ih (a + 1) b (by omega) p hp; omega

theorem lcsWalk_aligned (s1 s2 : List Char) :
    ∀ n a b, a + b ≤ n → a ≤ s1.length → b ≤ s2.length →
      Aligned s1 s2 0 0 (lcsWalk s1 s2 a b).reverse := by
  intro n
  induction n with
  | zero =>
    intro a b hab _ _
    have ha : a = 0 := by omega
    subst ha
    simp [lcsWalk_zero_left, Aligned]
  | succ n ih =>
    intro a b hab ha hb
    match a, b with
    | 0, b => simp [lcsWalk_zero_left, Aligned]
    | a + 1, 0 => simp [lcsWalk_zero_right, Aligned]
    | a + 1, b + 1 =>
      rw [lcsWalk_succ]
      by_cases hc : s1.getD a ' ' = s2.getD b ' '
      · rw [if_pos hc, List.reverse_cons]
        refine aligned_concat s1 s2 _ 0 0 a b
          (ih a b (by omega) (by omega) (by omega)) ?_
          (Nat.zero_le _) (Nat.zero_le _) (by omega) (by omega) hc
        intro p hp
        exact lcsWalk_mem_bounds s1 s2 (a + b) a b le_rfl p
          (List.mem_reverse.mp hp)
      · rw [if_neg hc]
        by_cases hd : dp s1 s2 a (b + 1) > dp s1 s2 (a + 1) b
        · rw [if_pos hd]
          exact ih a (b + 1) (by omega) (by omega) hb
        · rw [if_neg hd]
          exact ih (a + 1) b (by omega) ha (by omega)

/-- Claim C9: the alignment returned by `_get_lcs_with_indices` is an
ordered list of index pairs with strictly increasing original-side
indices, strictly increasing corrected-side indices, matching
characters at every pair, and every index in range of its string. -/
theorem alignment_invariants (s1 s2 : List Char) :
    Aligned s1 s2 0 0 (_get_lcs_with_indices s1 s2) :=
  lcsWalk_aligned s1 s2 (s1.length + s2.length) s1.length s2.length
    le_rfl le_rfl le_rfl

theorem lcsWalk_length (s1 s2 : List Char) :
    ∀ n a b, a + b ≤ n → (lcsWalk s1 s2 a b).length = dp s1 s2 a b := by
  intro n
  induction n with
  | zero =>
    intro a b hab
    have ha : a = 0 := by omega
    subst ha
    simp [lcsWalk_zero_left, dp_zero_left]
  | succ n ih =>
    intro a b hab
    match a, b with
    | 0, b => simp [lcsWalk_zero_left, dp_zero_left]
    | a + 1, 0 => simp [lcsWalk_zero_right, dp_zero_right]
    | a + 1, b + 1 =>
      rw [lcsWalk_succ, dp_succ]
      by_cases hc : s1.getD a ' ' = s2.getD b ' '
      · rw [if_pos hc, if_pos hc, List.length_cons, ih a b (by omega)]
      · rw [if_neg hc, if_neg hc]
        by_cases hd : dp s1 s2 a (b + 1) > dp s1 s2 (a + 1) b
        · rw [if_pos hd, ih a (b + 1) (by omega)]
          omega
        · rw [if_neg hd, ih (a + 1) b (by omega)]
          omega

theorem dp_bounds (s1 s2 : List Char) :
    ∀ n i j, i + j ≤ n →
      (dp s1 s2 i j ≤ dp s1 s2 (i + 1) j ∧ dp s1 s2 i j ≤ dp s1 s2 i (j + 1)) ∧
      dp s1 s2 (i + 1) j ≤ dp s1 s2 i j + 1 ∧
      dp s1 s2 i (j + 1) ≤ dp s1 s2 i j + 1 := by
  intro n
  induction n with
  | zero =>
    intro i j hij
    have hi : i = 0 := by omega
    have hj : j = 0 := by omega
    subst hi; subst hj
    rw [dp_zero_left, dp_zero_right, dp_zero_left]
    refine ⟨⟨Nat.zero_le _, Nat.zero_le _⟩, ?_, ?_⟩ <;> omega
  | succ n ih =>
    intro i j hij
    match i, j with
    | 0, 0 =>
      simp only [dp_zero_left, dp_zero_right]
      omega
    | i + 1, 0 =>
      have hB2 := (ih i 0 (by omega)).2.2
      simp only [dp_succ, dp_zero_left, dp_zero_right] at hB2 ⊢
      split_ifs <;> omega
    | 0, j + 1 =>
      have hB1 := (ih 0 j (by omega)).2.1
      simp only [dp_succ, dp_zero_left, dp_zero_right] at hB1 ⊢
      split_ifs <;> omega
    | i + 1, j + 1 =>
      obtain ⟨⟨hA1, hA2⟩, hB1, hB2⟩ := ih i j (by omega)
      obtain ⟨⟨hA1', hA2'⟩, hB1', hB2'⟩ := ih (i + 1) j (by omega)
      obtain ⟨⟨hA1'', hA2''⟩, hB1'', hB2''⟩ := ih i (j + 1) (by omega)
      clear ih hij
      simp only [dp_succ] at *
      split_ifs <;> omega

theorem take_succ_getD (l : List Char) (a : Nat) (h : a < l.length) :
    l.take (a + 1) = l.take a ++ [l.getD a ' '] := by
  rw [List.take_succ, List.getElem?_eq_getElem h, List.getD_eq_getElem l ' ' h]
  rfl

theorem sublist_concat_cases {α : Type} {l L : List α} {x : α}
    (h : l.Sublist (L ++ [x])) :
    l.Sublist L ∨ ∃ l', l = l' ++ [x] ∧ l'.Sublist L := by
  rcases List.sublist_append_iff.mp h with ⟨l1, l2, rfl, h1, h2⟩
  rcases List.sublist_cons_iff.mp h2 with h3 | ⟨r, rfl, h4⟩
  · left
    have h5 : l2 = [] := List.sublist_nil.mp h3
    subst h5
    simpa using h1
  · right
    have h5 : r = [] := List.sublist_nil.mp h4
    subst h5
    exact ⟨l1, rfl, h1⟩

theorem dp_ge_sublist (s1 s2 : List Char) :
    ∀ n a b, a + b ≤ n → a ≤ s1.length → b ≤ s2.length →
      ∀ l : List Char, l.Sublist (s1.take a) → l.Sublist (s2.take b) →
        l.length ≤ dp s1 s2 a b := by
  intro n
  induction n with
  | zero =>
    intro a b hab _ _ l h1 _
    have ha : a = 0 := by omega
    subst ha
    rw [List.take_zero, List.sublist_nil] at h1
    subst h1
    simp
  | succ n ih =>
    intro a b hab ha hb l h1 h2
    match a, b with
    | 0, b =>
      rw [List.take_zero, List.sublist_nil] at h1
      subst h1
      simp
    | a + 1, 0 =>
      rw [List.take_zero, List.sublist_nil] at h2
      subst h2
      simp
    | a + 1, b + 1 =>
      rw [take_succ_getD s1 a (by omega)] at h1
      rcases sublist_concat_cases h1 with hl | ⟨l', rfl, hl'⟩
      · have hlen := ih a (b + 1) (by omega) (by omega) hb l hl h2
        rw [dp_succ]
        by_cases hc : s1.getD a ' ' = s2.getD b ' '
        · rw [if_pos hc]
          have hstep := (dp_bounds s1 s2 (a + b) a b le_rfl).2.2
          omega
        · rw [if_neg hc]
          omega
      · rw [take_succ_getD s2 b (by omega)] at h2
        rcases sublist_concat_cases h2 with hr | ⟨l'', heq, hr'⟩
        · have h1' : (l' ++ [s1.getD a ' ']).Sublist (s1.take (a + 1)) := by
            rw [take_succ_getD s1 a (by omega)]
            exact hl'.append (List.Sublist.refl _)
          have hlen := ih (a + 1) b (by omega) ha (by omega) _ h1' hr
          have hmono := (dp_bounds s1 s2 (a + 1 + b) (a + 1) b le_rfl).1.2
          omega
        · obtain ⟨hll, hxy⟩ := List.append_inj' heq (by rfl)
          have hc : s1.getD a ' ' = s2.getD b ' ' := by
            injection hxy
          subst hll
          have hlen := ih a b (by omega) (by omega) (by omega) l' hl' hr'
          rw [dp_succ, if_pos hc, List.length_append]
          simp only [List.length_cons, List.length_nil]
          omega

/-- Claim C4: the index-pair list returned by `_get_lcs_with_indices`
has length `dp[m][n]`, and that length is maximal over all common
subsequences of `s1` and `s2`. -/
theorem lcs_length_maximal (s1 s2 : List Char) :
    (_get_lcs_with_indices s1 s2).length = dp s1 s2 s1.length s2.length ∧
    ∀ l : List Char, l.Sublist s1 → l.Sublist s2 →
      l.length ≤ (_get_lcs_with_indices s1 s2).length := by
  have hlen : (_get_lcs_with_indices s1 s2).length
      = dp s1 s2 s1.length s2.length := by
    unfold _get_lcs_with_indices
    rw [List.length_reverse]
    exact lcsWalk_length s1 s2 (s1.length + s2.length) _ _ le_rfl
  refine ⟨hlen, fun l h1 h2 => ?_⟩
  rw [hlen]
  refine dp_ge_sublist s1 s2 (s1.length + s2.length) _ _ le_rfl le_rfl le_rfl l ?_ ?_
  · rw [List.take_length]; exact h1
  · rw [List.take_length]; exact h2

/-- Witness for C4 at a concrete input: `"b"` is a common subsequence
of `"ab"` and `"bc"`, so it is no longer than the computed LCS. -/
theorem lcs_length_maximal_witness :
    (['b'] : List Char).length ≤ (_get_lcs_with_indices ['a', 'b'] ['b', 'c']).length :=
  (lcs_length_maximal ['a', 'b'] ['b', 'c']).2 ['b'] (by decide) (by decide)

/-- The kind carried by a difference record of either shape. -/
def recType : DiffRecord → DiffType
  | .short t _ _ _ => t
  | .full d => d.type

/-- Replay operator of the reconstruction law (spec §8): walk the
records in order over `original`, keeping original content not covered
by any record, dropping Delete-covered original content and
substituting each record's corrected-side content in record order;
`p` is the current original-side position, and a record whose
original-side range lies below `p` contributes no original content. -/
def replayAux (original : List Char) : Nat → List DiffRecord → List Char
  | p, [] => original.drop p
  | p, .short t c _ e :: rest =>
    (match t with
     | .Delete => replayAux original (max p e) rest
     | _ => c ++ replayAux original p rest)
  | p, .full d :: rest =>
    slice original p d.start_original ++ d.corrected ++
      replayAux original (max p d.end_original) rest

/-- Replaying a difference list against `original` from position 0. -/
def replay (original : List Char) (diffs : List DiffRecord) : List Char :=
  replayAux original 0 diffs

/-- Original-side span length of a record, read as claim C3 does:
`end_original - start_original` for a full record, `end - start` for a
short record when the record lives on the original side. -/
def origSpan : DiffRecord → Nat
  | .short t _ s e => (match t with | .Delete => e - s | _ => 0)
  | .full d => d.end_original - d.start_original

/-- Corrected-side span length of a record, read as claim C3 does. -/
def corrSpan : DiffRecord → Nat
  | .short t _ s e => (match t with | .Delete => 0 | _ => e - s)
  | .full d => d.end_corrected - d.start_corrected

/-- Sum of original-side span lengths over a difference list. -/
def sumOrigSpans (diffs : List DiffRecord) : Nat := (diffs.map origSpan).sum

/-- Sum of corrected-side span lengths over a difference list. -/
def sumCorrSpans (diffs : List DiffRecord) : Nat := (diffs.map corrSpan).sum

theorem slice_of_le (l : List Char) {a b : Nat} (h : b ≤ a) :
    slice l a b = [] := by
  unfold slice
  have hz : b - a = 0 := by omega
  rw [hz, List.take_zero]

theorem slice_append_drop (l : List Char) {a b : Nat} (hab : a ≤ b) :
    slice l a b ++ l.drop b = l.drop a := by
  have hd : l.drop b = (l.drop a).drop (b - a) := by
    rw [List.drop_drop]
    congr 1
    omega
  unfold slice
  rw [hd, List.take_append_drop]

theorem slice_to_length (l : List Char) {p : Nat} :
    slice l p l.length = l.drop p := by
  unfold slice
  apply List.take_of_length_le
  rw [List.length_drop]

theorem drop_of_length_le (l : List Char) {p : Nat} (h : l.length ≤ p) :
    l.drop p = [] :=
  List.drop_eq_nil_of_le h

theorem drop_eq_getD_cons (l : List Char) {c : Nat} (h : c < l.length) :
    l.drop c = l.getD c ' ' :: l.drop (c + 1) := by
  rw [List.drop_eq_getElem_cons h, List.getD_eq_getElem l ' ' h]

theorem slice_succ_right (l : List Char) {p i : Nat} (hp : p ≤ i)
    (hi : i < l.length) :
    slice l p (i + 1) = slice l p i ++ [l.getD i ' '] := by
  unfold slice
  have h1 : i + 1 - p = (i - p) + 1 := by omega
  rw [h1, List.take_succ]
  congr 1
  rw [List.getElem?_drop]
  have h2 : p + (i - p) = i := by omega
  rw [h2, List.getElem?_eq_getElem hi, List.getD_eq_getElem l ' ' hi]
  rfl

theorem diffSegments_nil (original corrected : List Char) (i j : Nat) :
    diffSegments original corrected i j [] =
      (if i < original.length then
        [({ type := .Delete, original := original.drop i, corrected := [],
            start_original := i, end_original := original.length,
            start_corrected := j, end_corrected := j } : Difference)]
       else []) ++
      (if j < corrected.length then
        [({ type := .Insert, original := [], corrected := corrected.drop j,
            start_original := i, end_original := i,
            start_corrected := j, end_corrected := corrected.length } : Difference)]
       else []) := rfl

theorem diffSegments_cons (original corrected : List Char) (i j op cp : Nat)
    (rest : List (Nat × Nat)) :
    diffSegments original corrected i j ((op, cp) :: rest) =
      (if i < op then
        [({ type := .Delete, original := slice original i op, corrected := [],
            start_original := i, end_original := op,
            start_corrected := j, end_corrected := j } : Difference)]
       else []) ++
      (if j < cp then
        [({ type := .Insert, original := [], corrected := slice corrected j cp,
            start_original := if i < op then op else i,
            end_original := if i < op then op else i,
            start_corrected := j, end_corrected := cp } : Difference)]
       else []) ++
      diffSegments original corrected ((if i < op then op else i) + 1)
        ((if j < cp then cp else j) + 1) rest := rfl

theorem replayAux_nil (original : List Char) (p : Nat) :
    replayAux original p [] = original.drop p := rfl

theorem replayAux_full (original : List Char) (p : Nat) (d : Difference)
    (rest : List DiffRecord) :
    replayAux original p (.full d :: rest) =
      slice original p d.start_original ++ d.corrected ++
        replayAux original (max p d.end_original) rest := rfl

theorem diffSegments_wf (original corrected : List Char) :
    ∀ pairs i j d, d ∈ diffSegments original corrected i j pairs →
      d.start_original ≤ d.end_original ∧
      d.start_corrected ≤ d.end_corrected := by
  intro pairs
  induction pairs with
  | nil =>
    intro i j d hd
    rw [diffSegments_nil] at hd
    rcases List.mem_append.mp hd with h | h
    · split_ifs at h with hg
      · simp only [List.mem_singleton] at h
        subst h
        simp only
        omega
      · simp at h
    · split_ifs at h with hg
      · simp only [List.mem_singleton] at h
        subst h
        simp only
        omega
      · simp at h
  | cons head rest ih =>
    obtain ⟨op, cp⟩ := head
    intro i j d hd
    rw [diffSegments_cons] at hd
    rcases List.mem_append.mp hd with h | h
    · rcases List.mem_append.mp h with h' | h'
      · split_ifs at h' with hg
        · simp only [List.mem_singleton] at h'
          subst h'
          simp only
          omega
        · simp at h'
      · split_ifs at h' with hg hg'
        · simp only [List.mem_singleton] at h'
          subst h'
          simp only
          omega
        · simp only [List.mem_singleton] at h'
          subst h'
          simp only
          omega
        · simp at h'
    · exact ih _ _ d h

theorem replayAux_mergeAux (original : List Char) :
    ∀ l last p, last.start_original ≤ last.end_original →
      (∀ d ∈ l, d.start_original ≤ d.end_original) →
      replayAux original p ((mergeAux last l).map DiffRecord.full) =
        replayAux original p ((last :: l).map DiffRecord.full) := by
  intro l
  induction l with
  | nil => intro last p _ _; rfl
  | cons curr rest ih =>
    intro last p hlast hl
    have hcurr := hl curr (List.mem_cons_self _ _)
    rw [mergeAux]
    by_cases h : mergeable last curr
    · rw [if_pos h]
      obtain ⟨hty, heo, hec⟩ := h
      have hcomb : (combine last curr).start_original ≤
          (combine last curr).end_original := by
        simp only [combine]
        omega
      rw [ih (combine last curr) p hcomb
        (fun d hd => hl d (List.mem_cons_of_mem _ hd))]
      simp only [List.map_cons, replayAux_full, combine]
      rw [slice_of_le original (show curr.start_original ≤ max p last.end_original by omega)]
      have hmax : max (max p last.end_original) curr.end_original =
          max p curr.end_original := by omega
      rw [hmax]
      simp [List.append_assoc]
    · rw [if_neg h]
      simp only [List.map_cons, replayAux_full]
      rw [ih curr (max p last.end_original) hcurr
        (fun d hd => hl d (List.mem_cons_of_mem _ hd))]
      simp only [List.map_cons, replayAux_full]

theorem sumSpans_mergeAux :
    ∀ l last, last.start_original ≤ last.end_original →
      last.start_corrected ≤ last.end_corrected →
      (∀ d ∈ l, d.start_original ≤ d.end_original ∧
        d.start_corrected ≤ d.end_corrected) →
      sumOrigSpans ((mergeAux last l).map DiffRecord.full) =
        sumOrigSpans ((last :: l).map DiffRecord.full) ∧
      sumCorrSpans ((mergeAux last l).map DiffRecord.full) =
        sumCorrSpans ((last :: l).map DiffRecord.full) := by
  intro l
  induction l with
  | nil => intro last _ _ _; exact ⟨rfl, rfl⟩
  | cons curr rest ih =>
    intro last hlo hlc hl
    have hcurr := hl curr (List.mem_cons_self _ _)
    rw [mergeAux]
    by_cases h : mergeable last curr
    · rw [if_pos h]
      obtain ⟨hty, heo, hec⟩ := h
      have hcombo : (combine last curr).start_original ≤
          (combine last curr).end_original := by
        simp only [combine]; omega
      have hcombc : (combine last curr).start_corrected ≤
          (combine last curr).end_corrected := by
        simp only [combine]; omega
      obtain ⟨ho, hc⟩ := ih (combine last curr) hcombo hcombc
        (fun d hd => hl d (List.mem_cons_of_mem _ hd))
      rw [ho, hc]
      constructor
      · simp only [sumOrigSpans, List.map_cons, List.sum_cons, origSpan, combine]
        omega
      · simp only [sumCorrSpans, List.map_cons, List.sum_cons, corrSpan, combine]
        omega
    · rw [if_neg h]
      obtain ⟨ho, hc⟩ := ih curr hcurr.1 hcurr.2
        (fun d hd => hl d (List.mem_cons_of_mem _ hd))
      constructor
      · simp only [sumOrigSpans, List.map_cons, List.sum_cons] at ho ⊢
        omega
      · simp only [sumCorrSpans, List.map_cons, List.sum_cons] at hc ⊢
        omega

theorem replay_diffSegments (original corrected : List Char) :
    ∀ pairs i j p, p ≤ i → i ≤ original.length → j ≤ corrected.length →
      Aligned original corrected i j pairs →
      replayAux original p
          ((diffSegments original corrected i j pairs).map DiffRecord.full) =
        slice original p i ++ corrected.drop j := by
  intro pairs
  induction pairs with
  | nil =>
    intro i j p hpi hi hj _
    rw [diffSegments_nil]
    by_cases hio : i < original.length
    · by_cases hjc : j < corrected.length
      · simp only [if_pos hio, if_pos hjc, List.cons_append, List.nil_append,
          List.map_cons, List.map_nil, replayAux_full, replayAux_nil]
        rw [slice_of_le original
          (show i ≤ max p original.length by omega)]
        rw [drop_of_length_le original
          (show original.length ≤ max (max p original.length) i by omega)]
        simp
      · simp only [if_pos hio, if_neg hjc, List.cons_append, List.nil_append,
          List.map_cons, List.map_nil, List.append_nil,
          replayAux_full, replayAux_nil]
        rw [drop_of_length_le original
          (show original.length ≤ max p original.length by omega),
          drop_of_length_le corrected (show corrected.length ≤ j by omega)]
    · by_cases hjc : j < corrected.length
      · simp only [if_neg hio, if_pos hjc, List.cons_append, List.nil_append,
          List.map_cons, List.map_nil, replayAux_full, replayAux_nil]
        rw [drop_of_length_le original (show original.length ≤ max p i by omega)]
        simp
      · simp only [if_neg hio, if_neg hjc, List.nil_append, List.map_nil,
          replayAux_nil]
        have hieq : i = original.length := by omega
        subst hieq
        rw [slice_to_length,
          drop_of_length_le corrected (show corrected.length ≤ j by omega)]
        simp
  | cons head rest ih =>
    obtain ⟨op, cp⟩ := head
    intro i j p hpi hi hj hal
    obtain ⟨hiop, hjcp, hopm, hcpn, hchar, hrest⟩ := hal
    rw [diffSegments_cons]
    have hsl : slice original op (op + 1) = [original.getD op ' '] := by
      rw [slice_succ_right original le_rfl hopm, slice_of_le original le_rfl]
      simp
    have hdropj : corrected.drop cp =
        corrected.getD cp ' ' :: corrected.drop (cp + 1) :=
      drop_eq_getD_cons corrected hcpn
    by_cases hio : i < op
    · by_cases hjc : j < cp
      · have hIH := ih (op + 1) (cp + 1) op (by omega) (by omega) (by omega) hrest
        simp only [if_pos hio, if_pos hjc, List.cons_append, List.nil_append,
          List.map_cons, List.map_append, replayAux_full]
        have hm1 : max p op = op := by omega
        have hm2 : max (max p op) op = op := by omega
        rw [hm2, hm1, slice_of_le original le_rfl, hIH, hsl, hchar]
        rw [← slice_append_drop corrected (le_of_lt hjc), hdropj]
        simp
      · have hjeq : j = cp := by omega
        subst hjeq
        have hIH := ih (op + 1) (j + 1) op (by omega) (by omega) (by omega) hrest
        simp only [if_pos hio, if_neg hjc, List.cons_append, List.nil_append,
          List.map_cons, List.map_append, List.append_nil, replayAux_full]
        have hm1 : max p op = op := by omega
        rw [hm1, hIH, hsl, hchar, hdropj]
        simp
    · have hieq : i = op := by omega
      subst hieq
      by_cases hjc : j < cp
      · have hIH := ih (i + 1) (cp + 1) i (by omega) (by omega) (by omega) hrest
        simp only [if_neg hio, if_pos hjc, List.cons_append, List.nil_append,
          List.map_cons, List.map_append, replayAux_full]
        have hm1 : max p i = i := by omega
        rw [hm1, hIH, hsl, hchar]
        rw [← slice_append_drop corrected (le_of_lt hjc), hdropj]
        simp
      · have hjeq : j = cp := by omega
        subst hjeq
        have hIH := ih (i + 1) (j + 1) p (by omega) (by omega) (by omega) hrest
        simp only [if_neg hio, if_neg hjc, List.nil_append]
        rw [hIH, slice_succ_right original hpi hopm, hchar, hdropj]
        simp

theorem spans_diffSegments (original corrected : List Char) :
    ∀ pairs i j, i ≤ original.length → j ≤ corrected.length →
      Aligned original corrected i j pairs →
      sumOrigSpans ((diffSegments original corrected i j pairs).map DiffRecord.full)
          + pairs.length + i = original.length ∧
      sumCorrSpans ((diffSegments original corrected i j pairs).map DiffRecord.full)
          + pairs.length + j = corrected.length := by
  intro pairs
  induction pairs with
  | nil =>
    intro i j hi hj _
    rw [diffSegments_nil]
    constructor
    · simp only [sumOrigSpans, List.map_append, List.sum_append]
      split_ifs <;> simp [origSpan] <;> omega
    · simp only [sumCorrSpans, List.map_append, List.sum_append]
      split_ifs <;> simp [corrSpan] <;> omega
  | cons head rest ih =>
    obtain ⟨op, cp⟩ := head
    intro i j hi hj hal
    obtain ⟨hiop, hjcp, hopm, hcpn, _, hrest⟩ := hal
    rw [diffSegments_cons]
    obtain ⟨iho, ihc⟩ := ih ((if i < op then op else i) + 1)
      ((if j < cp then cp else j) + 1)
      (by split_ifs <;> omega) (by split_ifs <;> omega)
      (by
        split_ifs with h1 h2 h2
        · exact hrest
        · exact aligned_le original corrected rest (op + 1) (cp + 1) _ _ hrest
            (by omega) (by omega)
        · exact aligned_le original corrected rest (op + 1) (cp + 1) _ _ hrest
            (by omega) (by omega)
        · exact aligned_le original corrected rest (op + 1) (cp + 1) _ _ hrest
            (by omega) (by omega))
    constructor
    · simp only [sumOrigSpans, List.map_append, List.sum_append,
        List.length_cons] at iho ⊢
      split_ifs at iho ⊢ with h1 h2 h2 <;> simp [origSpan] at iho ⊢ <;> omega
    · simp only [sumCorrSpans, List.map_append, List.sum_append,
        List.length_cons] at ihc ⊢
      split_ifs at ihc ⊢ with h1 h2 h2 <;> simp [corrSpan] at ihc ⊢ <;> omega

theorem replay_merge (original : List Char) (L : List Difference) (p : Nat)
    (hwf : ∀ d ∈ L, d.start_original ≤ d.end_original) :
    replayAux original p ((_merge_differences L).map DiffRecord.full) =
      replayAux original p (L.map DiffRecord.full) := by
  cases L with
  | nil => rfl
  | cons d rest =>
    exact replayAux_mergeAux original rest d p (hwf d (List.mem_cons_self _ _))
      (fun x hx => hwf x (List.mem_cons_of_mem _ hx))

theorem spans_merge (L : List Difference)
    (hwf : ∀ d ∈ L, d.start_original ≤ d.end_original ∧
      d.start_corrected ≤ d.end_corrected) :
    sumOrigSpans ((_merge_differences L).map DiffRecord.full) =
      sumOrigSpans (L.map DiffRecord.full) ∧
    sumCorrSpans ((_merge_differences L).map DiffRecord.full) =
      sumCorrSpans (L.map DiffRecord.full) := by
  cases L with
  | nil => exact ⟨rfl, rfl⟩
  | cons d rest =>
    exact sumSpans_mergeAux rest d (hwf d (List.mem_cons_self _ _)).1
      (hwf d (List.mem_cons_self _ _)).2
      (fun x hx => hwf x (List.mem_cons_of_mem _ hx))

theorem compare_text_ins (corrected : List Char) (h2 : corrected ≠ []) :
    (compare_text [] corrected).differences =
      [DiffRecord.short DiffType.Insert corrected 0 corrected.length] := by
  simp [compare_text, h2]

theorem compare_text_del (original : List Char) (h1 : original ≠ []) :
    (compare_text original []).differences =
      [DiffRecord.short DiffType.Delete original 0 original.length] := by
  simp [compare_text, h1]

theorem compare_text_replaceAll (original corrected : List Char)
    (h1 : original ≠ []) (h2 : corrected ≠ [])
    (h3 : _get_lcs_with_indices original corrected = []) :
    (compare_text original corrected).differences =
      [DiffRecord.full { type := DiffType.Replace, original := original,
                         corrected := corrected, start_original := 0,
                         end_original := original.length,
                         start_corrected := 0,
                         end_corrected := corrected.length }] := by
  simp only [compare_text]
  rw [if_neg (show ¬(original = [] ∧ corrected = []) by simp [h1]),
    if_neg h1, if_neg h2, if_pos h3]

theorem compare_text_main (original corrected : List Char)
    (h1 : original ≠ []) (h2 : corrected ≠ [])
    (h3 : _get_lcs_with_indices original corrected ≠ []) :
    (compare_text original corrected).differences =
      (_merge_differences (diffSegments original corrected 0 0
        (_get_lcs_with_indices original corrected))).map DiffRecord.full := by
  simp only [compare_text]
  rw [if_neg (show ¬(original = [] ∧ corrected = []) by simp [h1]),
    if_neg h1, if_neg h2, if_neg h3]

/-- Claim C2: for every pair of strings, replaying the merged
difference list returned by `compare_text` against `original` — keeping
content not covered by any record, dropping Delete-covered original
content and substituting Insert/Replace corrected content — yields
exactly `corrected`. -/
theorem compare_text_reconstruction (original corrected : List Char) :
    replay original (compare_text original corrected).differences = corrected := by
  by_cases h1 : original = []
  · by_cases h2 : corrected = []
    · subst h1; subst h2; rfl
    · subst h1
      rw [compare_text_ins corrected h2]
      simp [replay, replayAux]
  · by_cases h2 : corrected = []
    · subst h2
      rw [compare_text_del original h1]
      show replayAux original (max 0 original.length) [] = []
      rw [replayAux_nil]
      exact drop_of_length_le original (by omega)
    · have hal : Aligned original corrected 0 0
          (_get_lcs_with_indices original corrected) :=
        lcsWalk_aligned original corrected
          (original.length + corrected.length) _ _ le_rfl le_rfl le_rfl
      by_cases h3 : _get_lcs_with_indices original corrected = []
      · rw [compare_text_replaceAll original corrected h1 h2 h3]
        show slice original 0 0 ++ corrected ++
          replayAux original (max 0 original.length) [] = corrected
        rw [replayAux_nil, slice_of_le original le_rfl,
          drop_of_length_le original (by omega)]
        simp
      · rw [compare_text_main original corrected h1 h2 h3]
        unfold replay
        rw [replay_merge original _ 0
          (fun d hd => (diffSegments_wf original corrected _ 0 0 d hd).1)]
        rw [replay_diffSegments original corrected _ 0 0 0 le_rfl
          (Nat.zero_le _) (Nat.zero_le _) hal]
        rw [slice_of_le original le_rfl, List.drop_zero]
        simp

/-- Claim C3 fails as stated: for `original = corrected = "a"` the
returned difference list is empty (the single character is matched by
the LCS and matched content produces no record), so the original-side
spans sum to `0`, not `len(original) = 1`. -/
theorem coverage_counterexample :
    ¬ (sumOrigSpans (compare_text ['a'] ['a']).differences =
        (['a'] : List Char).length ∧
       sumCorrSpans (compare_text ['a'] ['a']).differences =
        (['a'] : List Char).length) := by
  decide

/-- Claim C3, amended: the spans of the returned difference list cover
exactly the characters not matched by the computed LCS — on each side
the span lengths plus the number of matched index pairs sum to that
side's length. -/
theorem compare_text_coverage (original corrected : List Char) :
    sumOrigSpans (compare_text original corrected).differences
        + (_get_lcs_with_indices original corrected).length = original.length ∧
    sumCorrSpans (compare_text original corrected).differences
        + (_get_lcs_with_indices original corrected).length = corrected.length := by
  by_cases h1 : original = []
  · by_cases h2 : corrected = []
    · subst h1; subst h2; exact ⟨rfl, rfl⟩
    · subst h1
      rw [compare_text_ins corrected h2]
      have hw : _get_lcs_with_indices [] corrected = [] := by
        unfold _get_lcs_with_indices
        rw [List.length_nil, lcsWalk_zero_left]
        rfl
      rw [hw]
      simp [sumOrigSpans, sumCorrSpans, origSpan, corrSpan]
  · by_cases h2 : corrected = []
    · subst h2
      rw [compare_text_del original h1]
      have hw : _get_lcs_with_indices original [] = [] := by
        unfold _get_lcs_with_indices
        rw [List.length_nil, lcsWalk_zero_right]
        rfl
      rw [hw]
      simp [sumOrigSpans, sumCorrSpans, origSpan, corrSpan]
    · have hal : Aligned original corrected 0 0
          (_get_lcs_with_indices original corrected) :=
        lcsWalk_aligned original corrected
          (original.length + corrected.length) _ _ le_rfl le_rfl le_rfl
      by_cases h3 : _get_lcs_with_indices original corrected = []
      · rw [compare_text_replaceAll original corrected h1 h2 h3, h3]
        simp [sumOrigSpans, sumCorrSpans, origSpan, corrSpan]
      · rw [compare_text_main original corrected h1 h2 h3]
        obtain ⟨ho, hc⟩ := spans_merge
          (diffSegments original corrected 0 0
            (_get_lcs_with_indices original corrected))
          (fun d hd => diffSegments_wf original corrected _ 0 0 d hd)
        obtain ⟨ho', hc'⟩ := spans_diffSegments original corrected
          (_get_lcs_with_indices original corrected) 0 0
          (Nat.zero_le _) (Nat.zero_le _) hal
        rw [ho, hc]
        omega

theorem diffSegments_types (original corrected : List Char) :
    ∀ pairs i j d, d ∈ diffSegments original corrected i j pairs →
      d.type = DiffType.Delete ∨ d.type = DiffType.Insert := by
  intro pairs
  induction pairs with
  | nil =>
    intro i j d hd
    rw [diffSegments_nil] at hd
    rcases List.mem_append.mp hd with h | h <;> split_ifs at h <;> first
      | (rw [List.mem_singleton] at h; subst h; simp)
      | exact absurd h (List.not_mem_nil d)
  | cons head rest ih =>
    obtain ⟨op, cp⟩ := head
    intro i j d hd
    rw [diffSegments_cons] at hd
    rcases List.mem_append.mp hd with h | h
    · rcases List.mem_append.mp h with h' | h' <;> split_ifs at h' <;> first
        | (rw [List.mem_singleton] at h'; subst h'; simp)
        | exact absurd h' (List.not_mem_nil d)
    · exact ih _ _ d h

theorem mergeAux_types (P : DiffType → Prop) :
    ∀ l last, P last.type → (∀ d ∈ l, P d.type) →
      ∀ d ∈ mergeAux last l, P d.type := by
  intro l
  induction l with
  | nil =>
    intro last hp _ d hd
    simp only [mergeAux, List.mem_singleton] at hd
    subst hd
    exact hp
  | cons curr rest ih =>
    intro last hp hl d hd
    rw [mergeAux] at hd
    by_cases h : mergeable last curr
    · rw [if_pos h] at hd
      exact ih (combine last curr) hp
        (fun x hx => hl x (List.mem_cons_of_mem _ hx)) d hd
    · rw [if_neg h] at hd
      rcases List.mem_cons.mp hd with h' | h'
      · subst h'; exact hp
      · exact ih curr (hl curr (List.mem_cons_self _ _))
          (fun x hx => hl x (List.mem_cons_of_mem _ hx)) d h'

/-- Claim C1 fails on the code: for original `"ab"` and corrected
`"cb"` the LCS is `"b"`; the single alignment gap before the match has
non-empty content on both sides, yet `compare_text` emits a Delete
followed by an Insert there and its script contains no Replace
operation at all. -/
theorem replace_policy_counterexample :
    (compare_text ['a', 'b'] ['c', 'b']).differences =
      [DiffRecord.full { type := DiffType.Delete, original := ['a'],
                         corrected := [], start_original := 0,
                         end_original := 1, start_corrected := 0,
                         end_corrected := 0 },
       DiffRecord.full { type := DiffType.Insert, original := [],
                         corrected := ['c'], start_original := 1,
                         end_original := 1, start_corrected := 0,
                         end_corrected := 1 }] ∧
    ∀ r ∈ (compare_text ['a', 'b'] ['c', 'b']).differences,
      recType r ≠ DiffType.Replace := by
  decide

/-- Claim C1, amended: at an alignment gap with non-empty content on
both sides, `compare_text` emits one Delete spanning the original-side
gap immediately followed by one Insert spanning the corrected-side
gap, and — whenever the computed LCS is non-empty — the merged script
never contains a Replace operation. -/
theorem gap_delete_insert (original corrected : List Char) :
    (∀ i j op cp rest, i < op → j < cp →
      diffSegments original corrected i j ((op, cp) :: rest) =
        { type := DiffType.Delete, original := slice original i op,
          corrected := [], start_original := i, end_original := op,
          start_corrected := j, end_corrected := j } ::
        { type := DiffType.Insert, original := [],
          corrected := slice corrected j cp, start_original := op,
          end_original := op, start_corrected := j,
          end_corrected := cp } ::
        diffSegments original corrected (op + 1) (cp + 1) rest) ∧
    (original ≠ [] → corrected ≠ [] →
      _get_lcs_with_indices original corrected ≠ [] →
      ∀ r ∈ (compare_text original corrected).differences,
        recType r ≠ DiffType.Replace) := by
  constructor
  · intro i j op cp rest hio hjc
    rw [diffSegments_cons]
    simp [if_pos hio, if_pos hjc]
  · intro h1 h2 h3 r hr
    rw [compare_text_main original corrected h1 h2 h3] at hr
    obtain ⟨d, hd, rfl⟩ := List.mem_map.mp hr
    show d.type ≠ DiffType.Replace
    have hP : d.type = DiffType.Delete ∨ d.type = DiffType.Insert := by
      cases hL : diffSegments original corrected 0 0
          (_get_lcs_with_indices original corrected) with
      | nil =>
        rw [hL] at hd
        exact absurd hd (List.not_mem_nil d)
      | cons d0 rest0 =>
        rw [hL] at hd
        refine mergeAux_types
          (fun t => t = DiffType.Delete ∨ t = DiffType.Insert) rest0 d0 ?_ ?_ d hd
        · exact diffSegments_types original corrected _ 0 0 d0
            (hL ▸ List.mem_cons_self d0 rest0)
        · intro x hx
          exact diffSegments_types original corrected _ 0 0 x
            (hL ▸ List.mem_cons_of_mem d0 hx)
    rcases hP with h | h <;> simp [h]

/-- Witness for the amended C1 at original `"ab"`, corrected `"cb"`:
the gap `(0,0)-(1,1)` before the matched `'b'` yields Delete-then-
Insert, and the merged script of that comparison holds no Replace. -/
theorem gap_delete_insert_witness :
    (diffSegments ['a', 'b'] ['c', 'b'] 0 0 [(1, 1)] =
      { type := DiffType.Delete, original := slice ['a', 'b'] 0 1,
        corrected := [], start_original := 0, end_original := 1,
        start_corrected := 0, end_corrected := 0 } ::
      { type := DiffType.Insert, original := [],
        corrected := slice ['c', 'b'] 0 1, start_original := 1,
        end_original := 1, start_corrected := 0,
        end_corrected := 1 } ::
      diffSegments ['a', 'b'] ['c', 'b'] 2 2 []) ∧
    ∀ r ∈ (compare_text ['a', 'b'] ['c', 'b']).differences,
      recType r ≠ DiffType.Replace :=
  ⟨(gap_delete_insert ['a', 'b'] ['c', 'b']).1 0 0 1 1 [] (by decide) (by decide),
   (gap_delete_insert ['a', 'b'] ['c', 'b']).2 (by decide) (by decide) (by decide)⟩

/-- Claim C8: non-empty inputs sharing no common character have an
empty computed LCS, and `compare_text` then returns exactly one
Replace record spanning the whole of both strings. -/
theorem disjoint_whole_replace (original corrected : List Char)
    (h1 : original ≠ []) (h2 : corrected ≠ [])
    (hdisj : ∀ c ∈ original, c ∉ corrected) :
    (compare_text original corrected).differences =
      [DiffRecord.full { type := DiffType.Replace, original := original,
                         corrected := corrected, start_original := 0,
                         end_original := original.length,
                         start_corrected := 0,
                         end_corrected := corrected.length }] := by
  have hpairs : _get_lcs_with_indices original corrected = [] := by
    cases hp : _get_lcs_with_indices original corrected with
    | nil => rfl
    | cons head tail =>
      obtain ⟨op, cp⟩ := head
      have hal : Aligned original corrected 0 0
          (_get_lcs_with_indices original corrected) :=
        lcsWalk_aligned original corrected
          (original.length + corrected.length) _ _ le_rfl le_rfl le_rfl
      rw [hp] at hal
      obtain ⟨_, _, h3, h4, h5, _⟩ := hal
      have hmem1 : original.getD op ' ' ∈ original := by
        rw [List.getD_eq_getElem original ' ' h3]
        exact List.getElem_mem h3
      have hmem2 : corrected.getD cp ' ' ∈ corrected := by
        rw [List.getD_eq_getElem corrected ' ' h4]
        exact List.getElem_mem h4
      exact absurd (h5 ▸ hmem2) (hdisj _ hmem1)
  exact compare_text_replaceAll original corrected h1 h2 hpairs

/-- Witness for C8: `"ab"` and `"cd"` share no character, and the
result is the single whole-string Replace record. -/
theorem disjoint_whole_replace_witness :
    (compare_text ['a', 'b'] ['c', 'd']).differences =
      [DiffRecord.full { type := DiffType.Replace, original := ['a', 'b'],
                         corrected := ['c', 'd'], start_original := 0,
                         end_original := (['a', 'b'] : List Char).length,
                         start_corrected := 0,
                         end_corrected := (['c', 'd'] : List Char).length }] :=
  disjoint_whole_replace ['a', 'b'] ['c', 'd'] (by decide) (by decide) (by decide)

/-- Claim C10: when exactly one input is empty the single returned
record has the short four-key shape (`type`/`content`/`start`/`end`);
when both inputs are non-empty every returned record has the full
seven-key shape. -/
theorem record_shapes (original corrected : List Char) :
    ((original = [] ∧ corrected ≠ []) ∨ (original ≠ [] ∧ corrected = []) →
      ∃ t c s e, (compare_text original corrected).differences =
        [DiffRecord.short t c s e]) ∧
    (original ≠ [] → corrected ≠ [] →
      ∀ r ∈ (compare_text original corrected).differences,
        ∃ d, r = DiffRecord.full d) := by
  constructor
  · rintro (⟨h1, h2⟩ | ⟨h1, h2⟩)
    · subst h1
      exact ⟨DiffType.Insert, corrected, 0, corrected.length,
        compare_text_ins corrected h2⟩
    · subst h2
      exact ⟨DiffType.Delete, original, 0, original.length,
        compare_text_del original h1⟩
  · intro h1 h2 r hr
    by_cases h3 : _get_lcs_with_indices original corrected = []
    · rw [compare_text_replaceAll original corrected h1 h2 h3] at hr
      simp only [List.mem_singleton] at hr
      exact ⟨_, hr⟩
    · rw [compare_text_main original corrected h1 h2 h3] at hr
      obtain ⟨d, _, rfl⟩ := List.mem_map.mp hr
      exact ⟨d, rfl⟩

/-- Witness for C10: one-empty-input case at `("", "hi")` and
both-non-empty case at `("ab", "cb")`. -/
theorem record_shapes_witness :
    (∃ t c s e, (compare_text [] ['h', 'i']).differences =
      [DiffRecord.short t c s e]) ∧
    ∀ r ∈ (compare_text ['a', 'b'] ['c', 'b']).differences,
      ∃ d, r = DiffRecord.full d :=
  ⟨(record_shapes [] ['h', 'i']).1 (Or.inl ⟨rfl, by decide⟩),
   (record_shapes ['a', 'b'] ['c', 'b']).2 (by decide) (by decide)⟩

theorem mergeAux_head :
    ∀ l last, ∃ h t, mergeAux last l = h :: t ∧ h.type = last.type ∧
      h.start_original = last.start_original ∧
      h.start_corrected = last.start_corrected := by
  intro l
  induction l with
  | nil => intro last; exact ⟨last, [], rfl, rfl, rfl, rfl⟩
  | cons curr rest ih =>
    intro last
    rw [mergeAux]
    by_cases h : mergeable last curr
    · rw [if_pos h]
      obtain ⟨hh, tt, heq, h1, h2, h3⟩ := ih (combine last curr)
      exact ⟨hh, tt, heq, h1, h2, h3⟩
    · rw [if_neg h]
      exact ⟨last, mergeAux curr rest, rfl, rfl, rfl, rfl⟩

theorem mergeAux_chain :
    ∀ l last, List.Chain' (fun a b => ¬ mergeable a b) (mergeAux last l) := by
  intro l
  induction l with
  | nil => intro last; simp [mergeAux]
  | cons curr rest ih =>
    intro last
    rw [mergeAux]
    by_cases h : mergeable last curr
    · rw [if_pos h]; exact ih (combine last curr)
    · rw [if_neg h]
      obtain ⟨hh, tt, heq, h1, h2, h3⟩ := mergeAux_head rest curr
      rw [heq, List.chain'_cons]
      refine ⟨?_, heq ▸ ih curr⟩
      intro hcontra
      obtain ⟨c1, c2, c3⟩ := hcontra
      exact h ⟨c1.trans h1, c2.trans h2, c3.trans h3⟩

theorem mergeAux_of_chain :
    ∀ l last, List.Chain' (fun a b => ¬ mergeable a b) (last :: l) →
      mergeAux last l = last :: l := by
  intro l
  induction l with
  | nil => intro last _; rfl
  | cons curr rest ih =>
    intro last hch
    rw [List.chain'_cons] at hch
    rw [mergeAux, if_neg hch.1, ih curr hch.2]

/-- Claim C6: `_merge_differences` is idempotent — applying it to its
own output returns that output unchanged — and equivalently no two
adjacent records of a merged output remain mergeable (same type and
touching ranges on both sides). -/
theorem merge_idempotent (l : List Difference) :
    _merge_differences (_merge_differences l) = _merge_differences l ∧
    List.Chain' (fun a b => ¬ mergeable a b) (_merge_differences l) := by
  cases l with
  | nil => exact ⟨rfl, List.chain'_nil⟩
  | cons d rest =>
    have hch : List.Chain' (fun a b => ¬ mergeable a b) (mergeAux d rest) :=
      mergeAux_chain rest d
    refine ⟨?_, hch⟩
    show _merge_differences (mergeAux d rest) = mergeAux d rest
    obtain ⟨hh, tt, heq, _, _, _⟩ := mergeAux_head rest d
    rw [heq] at hch ⊢
    exact mergeAux_of_chain tt hh hch

/-- The reference backtracking rule as worded by the spec (§4.1),
written independently of the code's loop: "Reconstruct by walking from
(m,n) backward: if `A[i-1]==B[j-1]`, emit pair (i-1,j-1) and move to
(i-1,j-1); otherwise move to (i-1,j) if `dp[i-1][j] > dp[i][j-1]`, else
move to (i,j-1) (ties favor consuming from B)". -/
def specAlignerWalk (s1 s2 : List Char) : Nat → Nat → List (Nat × Nat)
  | i + 1, j + 1 =>
    if s1.getD i ' ' = s2.getD j ' ' then (i, j) :: specAlignerWalk s1 s2 i j
    else if dp s1 s2 i (j + 1) > dp s1 s2 (i + 1) j then
      specAlignerWalk s1 s2 i (j + 1)
    else specAlignerWalk s1 s2 (i + 1) j
  | _, _ => []
termination_by i j => (i, j)

/-- The spec's Alignment (§4.1): the walk's pairs, reversed to restore
increasing order. -/
def specAlignment (s1 s2 : List Char) : List (Nat × Nat) :=
  (specAlignerWalk s1 s2 s1.length s2.length).reverse

theorem lcsWalk_eq_specAlignerWalk (s1 s2 : List Char) :
    ∀ n i j, i + j ≤ n → lcsWalk s1 s2 i j = specAlignerWalk s1 s2 i j := by
  intro n
  induction n with
  | zero =>
    intro i j hij
    have hi : i = 0 := by omega
    subst hi
    rw [lcsWalk_zero_left, specAlignerWalk]
    intro a b h1 h2
    omega
  | succ n ih =>
    intro i j hij
    match i, j with
    | 0, j =>
      rw [lcsWalk_zero_left, specAlignerWalk]
      intro a b h1 h2
      omega
    | i + 1, 0 =>
      rw [lcsWalk_zero_right, specAlignerWalk]
      intro a b h1 h2
      omega
    | i + 1, j + 1 =>
      rw [lcsWalk_succ, specAlignerWalk]
      by_cases hc : s1.getD i ' ' = s2.getD j ' '
      · rw [if_pos hc, if_pos hc, ih i j (by omega)]
      · rw [if_neg hc, if_neg hc]
        by_cases hd : dp s1 s2 i (j + 1) > dp s1 s2 (i + 1) j
        · rw [if_pos hd, if_pos hd, ih i (j + 1) (by omega)]
        · rw [if_neg hd, if_neg hd, ih (i + 1) j (by omega)]

/-- Claim C5: the code's backtracking follows the spec's reference
rule exactly — it moves up precisely when `dp[i-1][j] > dp[i][j-1]`
and otherwise (ties included) consumes from the corrected side — so
the returned alignment equals the spec's reference alignment. -/
theorem backtrack_follows_spec (s1 s2 : List Char) :
    _get_lcs_with_indices s1 s2 = specAlignment s1 s2 ∧
    (∀ i j, lcsWalk s1 s2 i j = specAlignerWalk s1 s2 i j) ∧
    ∀ i j, ¬ s1.getD i ' ' = s2.getD j ' ' →
      dp s1 s2 i (j + 1) = dp s1 s2 (i + 1) j →
      lcsWalk s1 s2 (i + 1) (j + 1) = lcsWalk s1 s2 (i + 1) j := by
  refine ⟨?_, ?_, ?_⟩
  · unfold _get_lcs_with_indices specAlignment
    rw [lcsWalk_eq_specAlignerWalk s1 s2 (s1.length + s2.length) _ _ le_rfl]
  · intro i j
    exact lcsWalk_eq_specAlignerWalk s1 s2 (i + j) i j le_rfl
  · intro i j hc hd
    rw [lcsWalk_succ, if_neg hc, if_neg (by omega)]

/-- Witness for C5 at `s1 = "ab"`, `s2 = "ba"`, cell (2,2): the
characters differ, `dp[1][2] = dp[2][1] = 1` is a tie, and the walk
consumes from the corrected side. -/
theorem backtrack_follows_spec_witness :
    lcsWalk ['a', 'b'] ['b', 'a'] 2 2 = lcsWalk ['a', 'b'] ['b', 'a'] 2 1 :=
  (backtrack_follows_spec ['a', 'b'] ['b', 'a']).2.2 1 1 (by decide) (by decide)

/-- A tag of an opcode produced by `difflib.SequenceMatcher
.get_opcodes()`, the external library collaborator that
`EnhancedContractComparator.compare_texts` iterates over
(src/Non-core functionality/非核心功能/新旧合同比对.py line 131). -/
inductive OpTag
  | replace
  | delete
  | insert
  | equal
deriving DecidableEq, Repr

/-- One opcode `(tag, i1, i2, j1, j2)` from `get_opcodes()`. -/
structure Opcode where
  tag : OpTag
  i1 : Nat
  i2 : Nat
  j1 : Nat
  j2 : Nat
deriving DecidableEq, Repr

/-- The three summary counters of `compare_texts`
(新旧合同比对.py lines 127-129). -/
structure Counts where
  additions_count : Nat
  deletions_count : Nat
  changes_count : Nat
deriving DecidableEq, Repr

/-- One iteration of the opcode loop of `compare_texts`
(新旧合同比对.py lines 131-154), restricted to the counters.  The first
pass walks `text1_lines[i1:i2]` and increments `changes_count` once per
line of a replace opcode and `deletions_count` once per line of a
delete opcode; the second pass walks `text2_lines[j1:j2]` and
increments `additions_count` once per line of an insert opcode.  The
HTML span strings accumulated by the same loop never feed back into
the counters. -/
def tallyOpcode (text1_lines text2_lines : List String) (c : Counts)
    (op : Opcode) : Counts :=
  let c1 :=
    match op.tag with
    | OpTag.replace =>
      { c with changes_count :=
          c.changes_count + (slice text1_lines op.i1 op.i2).length }
    | OpTag.delete =>
      { c with deletions_count :=
          c.deletions_count + (slice text1_lines op.i1 op.i2).length }
    | _ => c
  match op.tag with
  | OpTag.insert =>
    { c1 with additions_count :=
        c1.additions_count + (slice text2_lines op.j1 op.j2).length }
  | _ => c1

/-- The counters reported by `compare_texts` after the full opcode
loop, starting from zero (新旧合同比对.py lines 126-154). -/
def compare_texts_counts (text1_lines text2_lines : List String)
    (opcodes : List Opcode) : Counts :=
  opcodes.foldl (tallyOpcode text1_lines text2_lines) ⟨0, 0, 0⟩

/-- Claim C7 fails on the code: for `text1 = "a\nb"` and `text2 = ""`
(line lists `["a", "b"]` and `[]`) the matcher yields the single opcode
`('delete', 0, 2, 0, 0)` — one Delete operation — yet the loop reports
`deletions_count = 2`, one tally per spanned line rather than one per
operation. -/
theorem tally_counterexample :
    ¬ ((compare_texts_counts ["a", "b"] []
          [⟨OpTag.delete, 0, 2, 0, 0⟩]).deletions_count =
        ([(⟨OpTag.delete, 0, 2, 0, 0⟩ : Opcode)].countP
          (fun o => o.tag == OpTag.delete))) := by
  decide

theorem tallyOpcode_additions (text1_lines text2_lines : List String)
    (c : Counts) (op : Opcode) :
    (tallyOpcode text1_lines text2_lines c op).additions_count =
      c.additions_count +
        (if op.tag = OpTag.insert then
          (slice text2_lines op.j1 op.j2).length else 0) := by
  cases htag : op.tag <;> simp [tallyOpcode, htag]

theorem tallyOpcode_deletions (text1_lines text2_lines : List String)
    (c : Counts) (op : Opcode) :
    (tallyOpcode text1_lines text2_lines c op).deletions_count =
      c.deletions_count +
        (if op.tag = OpTag.delete then
          (slice text1_lines op.i1 op.i2).length else 0) := by
  cases htag : op.tag <;> simp [tallyOpcode, htag]

theorem tallyOpcode_changes (text1_lines text2_lines : List String)
    (c : Counts) (op : Opcode) :
    (tallyOpcode text1_lines text2_lines c op).changes_count =
      c.changes_count +
        (if op.tag = OpTag.replace then
          (slice text1_lines op.i1 op.i2).length else 0) := by
  cases htag : op.tag <;> simp [tallyOpcode, htag]

theorem tally_foldl (text1_lines text2_lines : List String) :
    ∀ (opcodes : List Opcode) (c : Counts),
      (opcodes.foldl (tallyOpcode text1_lines text2_lines) c).additions_count =
        c.additions_count +
          ((opcodes.filter (fun o => o.tag == OpTag.insert)).map
            (fun o => (slice text2_lines o.j1 o.j2).length)).sum ∧
      (opcodes.foldl (tallyOpcode text1_lines text2_lines) c).deletions_count =
        c.deletions_count +
          ((opcodes.filter (fun o => o.tag == OpTag.delete)).map
            (fun o => (slice text1_lines o.i1 o.i2).length)).sum ∧
      (opcodes.foldl (tallyOpcode text1_lines text2_lines) c).changes_count =
        c.changes_count +
          ((opcodes.filter (fun o => o.tag == OpTag.replace)).map
            (fun o => (slice text1_lines o.i1 o.i2).length)).sum := by
  intro opcodes
  induction opcodes with
  | nil => intro c; simp
  | cons op rest ih =>
    intro c
    obtain ⟨ha, hd, hc⟩ := ih (tallyOpcode text1_lines text2_lines c op)
    rw [List.foldl_cons]
    refine ⟨?_, ?_, ?_⟩
    · rw [ha, tallyOpcode_additions, List.filter_cons]
      by_cases h : op.tag = OpTag.insert <;> simp [h] <;> omega
    · rw [hd, tallyOpcode_deletions, List.filter_cons]
      by_cases h : op.tag = OpTag.delete <;> simp [h] <;> omega
    · rw [hc, tallyOpcode_changes, List.filter_cons]
      by_cases h : op.tag = OpTag.replace <;> simp [h] <;> omega

/-- Claim C7, amended: each counter tallies once per spanned line, not
once per operation — `additions_count` is the total number of
corrected-side lines across insert opcodes, `deletions_count` the
total original-side lines across delete opcodes, and `changes_count`
the total original-side lines across replace opcodes. -/
theorem tally_line_counts (text1_lines text2_lines : List String)
    (opcodes : List Opcode) :
    (compare_texts_counts text1_lines text2_lines opcodes).additions_count =
      ((opcodes.filter (fun o => o.tag == OpTag.insert)).map
        (fun o => (slice text2_lines o.j1 o.j2).length)).sum ∧
    (compare_texts_counts text1_lines text2_lines opcodes).deletions_count =
      ((opcodes.filter (fun o => o.tag == OpTag.delete)).map
        (fun o => (slice text1_lines o.i1 o.i2).length)).sum ∧
    (compare_texts_counts text1_lines text2_lines opcodes).changes_count =
      ((opcodes.filter (fun o => o.tag == OpTag.replace)).map
        (fun o => (slice text1_lines o.i1 o.i2).length)).sum := by
  obtain ⟨ha, hd, hc⟩ := tally_foldl text1_lines text2_lines opcodes ⟨0, 0, 0⟩
  exact ⟨by simpa using ha, by simpa using hd, by simpa using hc⟩

end LegisScan
